import Mathlib

/-!
# Verification of the rotation-proxy trade-extraction core

Shallow embedding of the extraction / deduplication / chaining / clustering
logic of the rotation data proxy (src/server.js and the unnamed variants).
Text is modelled as `List Char`; each JavaScript regular expression used by
the source is implemented as an explicit matching function with the same
leftmost-match and backtracking semantics, specialised to that pattern.
Character classes follow the ASCII behaviour of the JS patterns involved
(`[A-Z]`, `\d`, `\s`, `\w`, word boundaries).
-/

/-- ASCII uppercase letter, the JS character class `[A-Z]` (no `i` flag);
compared on code points, as JS compares code units. -/
def isUpperAZ (c : Char) : Bool := 65 ≤ c.toNat && c.toNat ≤ 90

/-- ASCII lowercase letter. -/
def isLowerAZ (c : Char) : Bool := 97 ≤ c.toNat && c.toNat ≤ 122

/-- ASCII letter: what `[A-Z]` matches under the JS `i` flag. -/
def isLetterAZ (c : Char) : Bool := isUpperAZ c || isLowerAZ c

/-- ASCII digit, JS `\d`. -/
def isDigit09 (c : Char) : Bool := 48 ≤ c.toNat && c.toNat ≤ 57

/-- JS word character `\w` = `[A-Za-z0-9_]` (used for `\b` boundaries). -/
def isWordCh (c : Char) : Bool := isLetterAZ c || isDigit09 c || c = '_'

/-- JS whitespace `\s`, restricted to the ASCII whitespace characters. -/
def isSpaceJS (c : Char) : Bool :=
  c = ' ' || c = '\t' || c = '\n' || c = '\r' || c = '\x0b' || c = '\x0c'

/-- ASCII case folding, as `String.prototype.toUpperCase` acts on ASCII. -/
def jsToUpper (c : Char) : Char := if isLowerAZ c then Char.ofNat (c.toNat - 32) else c

/-- ASCII case folding, as `String.prototype.toLowerCase` acts on ASCII. -/
def jsToLower (c : Char) : Char := if isUpperAZ c then Char.ofNat (c.toNat + 32) else c

/-- JS `String.prototype.trim`: drop leading and trailing whitespace. -/
def trimJS (l : List Char) : List Char :=
  ((l.dropWhile isSpaceJS).reverse.dropWhile isSpaceJS).reverse

/-- JS `text.split('\n')`. -/
def splitNl : List Char → List (List Char)
  | [] => [[]]
  | c :: rest =>
    if c = '\n' then [] :: splitNl rest
    else
      match splitNl rest with
      | [] => [[c]]
      | l :: ls => (c :: l) :: ls

/-- Does `l` start with `pat` (case-sensitive)? -/
def startsWithList : List Char → List Char → Bool
  | [], _ => true
  | _ :: _, [] => false
  | p :: ps, c :: cs => p = c && startsWithList ps cs

/-- Does `l` start with `pat`, comparing ASCII case-insensitively? -/
def startsWithCI : List Char → List Char → Bool
  | [], _ => true
  | _ :: _, [] => false
  | p :: ps, c :: cs => jsToLower p = jsToLower c && startsWithCI ps cs

/-- Does `l` contain `pat` as a contiguous substring (JS `String.prototype.includes`)? -/
def containsSub (l pat : List Char) : Bool :=
  match l with
  | [] => pat.isEmpty
  | _ :: rest => startsWithList pat l || containsSub rest pat

/-- Does `l` start with one of the given literal strings? -/
def startsWithAny (l : List Char) (pats : List (List Char)) : Bool :=
  pats.any (fun p => startsWithList p l)

/-- JS `lines.join(' ')`. -/
def joinSp : List (List Char) → List Char
  | [] => []
  | [l] => l
  | l :: ls => l ++ ' ' :: joinSp ls

/-!
## The trade record produced by `parseTradesFromPdfText`

`trades.push({ ticker, asset, type, amount })` in src/server.js.
-/

structure Trade where
  ticker : String
  asset : String
  type : String
  amount : String
deriving DecidableEq

/-!
## Strategy 1 matchers (src/server.js lines 42-85)
-/

/-- The skip-noise prefixes of the anchored alternation
`/^(ID|Owner|Asset|Transaction|Date|Notification|Amount|Cap\.|Page|Filing|Clerk|PERIODIC|Hon\.|Name:|Status:|State)/`. -/
def noisePrefixes : List (List Char) :=
  ["ID".data, "Owner".data, "Asset".data, "Transaction".data, "Date".data,
   "Notification".data, "Amount".data, "Cap.".data, "Page".data, "Filing".data,
   "Clerk".data, "PERIODIC".data, "Hon.".data, "Name:".data, "Status:".data,
   "State".data]

/-- Anchored attempt of `/\(([A-Z]{1,5})\)/` at the head of `l`:
an opening paren, a run of 1-5 uppercase letters, a closing paren.
With the greedy `{1,5}`, a match at a given paren exists iff the maximal
uppercase run after it has length 1-5 and is immediately followed by `)`. -/
def parenTickerAt (l : List Char) : Option (List Char) :=
  match l with
  | '(' :: rest =>
    let run := rest.takeWhile isUpperAZ
    if 1 ≤ run.length ∧ run.length ≤ 5 then
      match rest.drop run.length with
      | ')' :: _ => some run
      | _ => none
    else none
  | _ => none

/-- Leftmost match of `/\(([A-Z]{1,5})\)/`, returning the captured group. -/
def findParenTicker : List Char → Option (List Char)
  | [] => none
  | c :: rest =>
    match parenTickerAt (c :: rest) with
    | some r => some r
    | none => findParenTicker rest

/-- Anchored attempt of `/\[([A-Z]{1,5})\](?!ST|OT|AB|OP|MF)/` at the head:
bracketed 1-5 uppercase letters whose following text does not begin with one
of the five listed two-letter codes (negative lookahead placed after `]`). -/
def bracketTickerAt (l : List Char) : Option (List Char) :=
  match l with
  | '[' :: rest =>
    let run := rest.takeWhile isUpperAZ
    if 1 ≤ run.length ∧ run.length ≤ 5 then
      match rest.drop run.length with
      | ']' :: after =>
        if startsWithAny after ["ST".data, "OT".data, "AB".data, "OP".data, "MF".data]
        then none else some run
      | _ => none
    else none
  | _ => none

/-- Leftmost match of `/\[([A-Z]{1,5})\](?!ST|OT|AB|OP|MF)/`. -/
def findBracketTicker : List Char → Option (List Char)
  | [] => none
  | c :: rest =>
    match bracketTickerAt (c :: rest) with
    | some r => some r
    | none => findBracketTicker rest

/-- Is there a word boundary `\b` just before the head of `l`, given the
previous character (`none` at the start of the text)?  The following
alternatives all begin with a letter, so the boundary holds iff the previous
character is absent or a non-word character. -/
def boundaryBefore (prev : Option Char) : Bool :=
  match prev with
  | none => true
  | some p => !isWordCh p

/-- Word boundary `\b` just after a letter, i.e. the next character is absent
or a non-word character. -/
def boundaryAfter (l : List Char) : Bool :=
  match l with
  | [] => true
  | c :: _ => !isWordCh c

/-- Leftmost match of `/\b(Purchase|Sale)\b/i`, returning the matched group
text as it appears in the input (alternation tried in pattern order at each
position). -/
def findWordPS (prev : Option Char) : List Char → Option (List Char)
  | [] => none
  | c :: rest =>
    if boundaryBefore prev && startsWithCI "Purchase".data (c :: rest) &&
        boundaryAfter ((c :: rest).drop 8) then
      some ((c :: rest).take 8)
    else if boundaryBefore prev && startsWithCI "Sale".data (c :: rest) &&
        boundaryAfter ((c :: rest).drop 4) then
      some ((c :: rest).take 4)
    else findWordPS (some c) rest

/-- Anchored match of `/^\s*([PS])\s+\d/`: optional leading whitespace, a
`P` or `S`, at least one whitespace character, then a digit. -/
def matchStartPS (l : List Char) : Option Char :=
  match l.dropWhile isSpaceJS with
  | c :: rest =>
    if c = 'P' ∨ c = 'S' then
      let sp := rest.takeWhile isSpaceJS
      if 1 ≤ sp.length then
        match rest.drop sp.length with
        | d :: _ => if isDigit09 d then some c else none
        | [] => none
      else none
    else none
  | [] => none

/-- Anchored attempt of `/\s([PS])\s+\d{2}\/\d{2}/` at the head of `l`. -/
def psDateAt (l : List Char) : Option Char :=
  match l with
  | s :: c :: rest =>
    if isSpaceJS s ∧ (c = 'P' ∨ c = 'S') then
      let sp := rest.takeWhile isSpaceJS
      if 1 ≤ sp.length then
        match rest.drop sp.length with
        | d1 :: d2 :: sl :: d3 :: d4 :: _ =>
          if isDigit09 d1 ∧ isDigit09 d2 ∧ sl = '/' ∧ isDigit09 d3 ∧ isDigit09 d4
          then some c else none
        | _ => none
      else none
    else none
  | _ => none

/-- Leftmost match of `/\s([PS])\s+\d{2}\/\d{2}/`, returning the `[PS]` group. -/
def findPsDate : List Char → Option Char
  | [] => none
  | c :: rest =>
    match psDateAt (c :: rest) with
    | some r => some r
    | none => findPsDate rest

/-- Anchored attempt of `/\$[\d,]+(?:\s*-\s*\$[\d,]+)?/` at the head of `l`:
a dollar sign, a maximal nonempty run of digits/commas, then optionally
whitespace, a hyphen, whitespace, and a second dollar amount.  The optional
group is greedy; if it cannot complete, the match is the first amount alone. -/
def amountAt (l : List Char) : Option (List Char) :=
  match l with
  | '$' :: rest =>
    let run := rest.takeWhile (fun c => isDigit09 c || c = ',')
    if run.length = 0 then none
    else
      let after := rest.drop run.length
      let sp1 := after.takeWhile isSpaceJS
      match after.drop sp1.length with
      | '-' :: r2 =>
        let sp2 := r2.takeWhile isSpaceJS
        match r2.drop sp2.length with
        | '$' :: r3 =>
          let run2 := r3.takeWhile (fun c => isDigit09 c || c = ',')
          if run2.length = 0 then some ('$' :: run)
          else some ('$' :: (run ++ sp1 ++ '-' :: (sp2 ++ '$' :: run2)))
        | _ => some ('$' :: run)
      | _ => some ('$' :: run)
  | _ => none

/-- Leftmost match of the amount pattern. -/
def findAmount : List Char → Option (List Char)
  | [] => none
  | c :: rest =>
    match amountAt (c :: rest) with
    | some r => some r
    | none => findAmount rest

/-- The ticker-update of one Strategy 1 iteration:
`tickerMatch = line.match(parens) || line.match(brackets)`; on a match,
`currentTicker` and `currentAsset` are replaced, otherwise kept. -/
def tickerUpdate (line tick asset : List Char) : List Char × List Char :=
  match (match findParenTicker line with
         | some r => some r
         | none => findBracketTicker line) with
  | some r => (r, line)
  | none => (tick, asset)

/-- The transaction-code search of one Strategy 1 iteration:
the word grammar over `lines.slice(i, i+4).join(' ')`, else the anchored
`^\s*([PS])\s+\d` on the line, else `\s([PS])\s+\d{2}\/\d{2}` on the line;
the captured group (as matched). -/
def txWordOf (line : List Char) (rest : List (List Char)) : Option (List Char) :=
  match findWordPS none (joinSp (line :: rest.take 3)) with
  | some w => some w
  | none =>
    match matchStartPS line with
    | some c => some [c]
    | none =>
      match findPsDate line with
      | some c => some [c]
      | none => none

/-- The type-update of one Strategy 1 iteration: when a transaction code was
found and `currentTicker` is nonempty, the type becomes `Purchase` iff the
uppercased captured group starts with `P` (`txWord === 'P' ||
txWord.startsWith('P')`), else `Sale`; otherwise `currentType` is kept. -/
def typeUpdate (txm : Option (List Char)) (tick2 ty : List Char) : List Char :=
  match txm with
  | some (c :: _) =>
    if tick2 ≠ [] then (if jsToUpper c = 'P' then "Purchase".data else "Sale".data)
    else ty
  | _ => ty

/-- One iteration step of Strategy 1 (the body of the `for` loop over lines),
run over the remaining lines with the loop state `(currentTicker,
currentAsset, currentType)`.  A record is pushed when the ticker and type are
set and an amount matches on `line + ' ' + (lines[i+1] || '')`; only the type
is then reset. -/
def strat1Loop : List (List Char) → List Char → List Char → List Char → List Trade
  | [], _, _, _ => []
  | line :: rest, tick, asset, ty =>
    if line.length < 3 then strat1Loop rest tick asset ty
    else if startsWithAny line noisePrefixes then strat1Loop rest tick asset ty
    else
      let tick2 := (tickerUpdate line tick asset).1
      let asset2 := (tickerUpdate line tick asset).2
      let ty2 := typeUpdate (txWordOf line rest) tick2 ty
      match findAmount (line ++ ' ' :: (rest.head?).getD []) with
      | some amt =>
        if tick2 ≠ [] ∧ ty2 ≠ [] then
          { ticker := String.mk tick2, asset := String.mk asset2,
            type := String.mk ty2, amount := String.mk amt } ::
            strat1Loop rest tick2 asset2 []
        else strat1Loop rest tick2 asset2 ty2
      | none => strat1Loop rest tick2 asset2 ty2

/-!
## Strategy 2 matchers (src/server.js lines 87-100)

The pattern, with flags `gi`:
`/\(([A-Z]{1,5})\)[^$]{0,300}?\b(Purchase|Sale|[PS])\b[^$]{0,100}?(\$[\d,]+(?:\s*-\s*\$[\d,]+)?)/`
Under the `i` flag `[A-Z]` matches letters of either case and the
transaction-code alternatives match case-insensitively.
-/

/-- Anchored ticker part `\(([A-Z]{1,5})\)` under the `i` flag: the captured
run (in its original case) and the remaining text after the `)`. -/
def tickerParenCIAt (l : List Char) : Option (List Char × List Char) :=
  match l with
  | '(' :: rest =>
    let run := rest.takeWhile isLetterAZ
    if 1 ≤ run.length ∧ run.length ≤ 5 then
      match rest.drop run.length with
      | ')' :: after => some (run, after)
      | _ => none
    else none
  | _ => none

/-- The amount part after the lazy gap `[^$]{0,100}?`: skip up to `fuel`
non-dollar characters, then the amount pattern must match at the first `$`.
Returns the matched amount and the remaining text after it. -/
def amtWithin (l : List Char) (fuel : Nat) : Option (List Char × List Char) :=
  match l with
  | [] => none
  | '$' :: rest =>
    match amountAt ('$' :: rest) with
    | some a => some (a, ('$' :: rest).drop a.length)
    | none => none
  | _ :: rest =>
    match fuel with
    | 0 => none
    | f + 1 => amtWithin rest f

/-- Anchored attempt of `\b(Purchase|Sale|[PS])\b` followed by the amount
part, at the current gap position.  Alternatives are tried in pattern order;
an alternative only succeeds if the amount part also succeeds after it
(the regex engine backtracks over the alternation otherwise). -/
def tryTxAt (prev : Char) (l : List Char) : Option (List Char × List Char × List Char) :=
  if isWordCh prev then none
  else if startsWithCI "Purchase".data l ∧ boundaryAfter (l.drop 8) then
    match amtWithin (l.drop 8) 100 with
    | some (a, rest) => some (l.take 8, a, rest)
    | none =>
      match l with
      | c :: _ =>
        if (c = 'P' ∨ c = 'p') ∧ boundaryAfter (l.drop 1) then
          match amtWithin (l.drop 1) 100 with
          | some (a, rest) => some ([c], a, rest)
          | none => none
        else none
      | [] => none
  else if startsWithCI "Sale".data l ∧ boundaryAfter (l.drop 4) then
    match amtWithin (l.drop 4) 100 with
    | some (a, rest) => some (l.take 4, a, rest)
    | none =>
      match l with
      | c :: _ =>
        if (c = 'S' ∨ c = 's') ∧ boundaryAfter (l.drop 1) then
          match amtWithin (l.drop 1) 100 with
          | some (a, rest) => some ([c], a, rest)
          | none => none
        else none
      | [] => none
  else
    match l with
    | c :: _ =>
      if (c = 'P' ∨ c = 'p' ∨ c = 'S' ∨ c = 's') ∧ boundaryAfter (l.drop 1) then
        match amtWithin (l.drop 1) 100 with
        | some (a, rest) => some ([c], a, rest)
        | none => none
      else none
    | [] => none

/-- The lazy gap `[^$]{0,300}?` before the transaction code: try the
transaction-plus-amount part at each offset `0..300`, advancing only over
non-dollar characters. -/
def txAmtSearch (prev : Char) (l : List Char) (fuel : Nat) :
    Option (List Char × List Char × List Char) :=
  match tryTxAt prev l with
  | some r => some r
  | none =>
    match l with
    | [] => none
    | c :: rest =>
      if c = '$' then none
      else
        match fuel with
        | 0 => none
        | f + 1 => txAmtSearch c rest f

/-- Anchored attempt of the whole block pattern at the head of `l`:
returns (ticker group, transaction-code group, amount group, text after the
match).  The character before the gap at offset 0 is the closing `)`. -/
def blockMatchAt (l : List Char) : Option (List Char × List Char × List Char × List Char) :=
  match tickerParenCIAt l with
  | some (tk, after) =>
    match txAmtSearch ')' after 300 with
    | some (tx, a, rest) => some (tk, tx, a, rest)
    | none => none
  | none => none

/-- The `exec` loop over the flattened text: find each successive leftmost
match, resuming after the end of the previous match.  `fuel` bounds the scan
(every step consumes at least one character). -/
def strat2Scan (l : List Char) (fuel : Nat) : List (List Char × List Char × List Char) :=
  match fuel with
  | 0 => []
  | f + 1 =>
    match l with
    | [] => []
    | c :: rest =>
      match blockMatchAt (c :: rest) with
      | some (tk, tx, a, after) => (tk, tx, a) :: strat2Scan after f
      | none => strat2Scan rest f

/-- The denylist of parenthetical codes skipped by Strategy 2
(compared case-sensitively against the captured group, as
`['ST','OT','OP','MF','DC','SP','JT','TR','IRA','JA','DEP'].includes(ticker)`). -/
def denylist : List String :=
  ["ST", "OT", "OP", "MF", "DC", "SP", "JT", "TR", "IRA", "JA", "DEP"]

/-- Strategy 2 trade records: each block match pushes
`{ ticker, asset: '', type, amount }` unless the ticker is denylisted;
the type is `Purchase` when the uppercased code is `P` or `PURCHASE`. -/
def strat2Trades (fullText : List Char) : List Trade :=
  (strat2Scan fullText fullText.length).filterMap (fun m =>
    let tk := String.mk m.1
    if denylist.contains tk then none
    else
      let txUp := m.2.1.map jsToUpper
      let ty : String :=
        if txUp = "P".data ∨ txUp = "PURCHASE".data then "Purchase" else "Sale"
      some { ticker := tk, asset := "", type := ty, amount := String.mk m.2.2 })

/-!
## Deduplication (src/server.js lines 102-110)
-/

/-- The dedup key `t.ticker + t.type + t.amount`. -/
def keyOf (t : Trade) : String := t.ticker ++ t.type ++ t.amount

/-- The dedup filter with its `seen` set of keys: a record is dropped when
its ticker is empty or longer than five characters, or when its key was
already seen; otherwise it is kept and its key recorded. -/
def dedupAux : List String → List Trade → List Trade
  | _, [] => []
  | seen, t :: rest =>
    if t.ticker.length < 1 ∨ t.ticker.length > 5 then dedupAux seen rest
    else if keyOf t ∈ seen then dedupAux seen rest
    else t :: dedupAux (keyOf t :: seen) rest

/-- The full dedup pass `trades.filter(...)` with an initially empty `seen` set. -/
def dedupTrades (ts : List Trade) : List Trade := dedupAux [] ts

/-!
## The flattened-stream extractor `parseTradesFromPdfText`
(src/server.js lines 27-111; the `representative` parameter is unused there)
-/

def parseTradesFromPdfText (text : String) : List Trade :=
  let lines := ((splitNl text.data).map trimJS).filter (fun l => !l.isEmpty)
  let s1 := strat1Loop lines [] [] []
  let fullText := text.data.map (fun c => if c = '\n' then ' ' else c)
  let s2 := strat2Trades fullText
  dedupTrades (s1 ++ s2)

/-- The extractor with an explicit error channel standing for a thrown JS
exception.  No operation in the source body (string split/trim/filter, the
regular-expression searches, array pushes, `Set` operations) can throw, so
every step returns on the `ok` path. -/
def parseTradesFromPdfTextE (text : String) : Except String (List Trade) := do
  let lines := ((splitNl text.data).map trimJS).filter (fun l => !l.isEmpty)
  let s1 := strat1Loop lines [] [] []
  let fullText := text.data.map (fun c => if c = '\n' then ' ' else c)
  let s2 := strat2Trades fullText
  return dedupTrades (s1 ++ s2)

/-!
## `normalizeTransaction` (src/unnamed/part_001, helper section)

JS: a falsy argument (absent or empty) yields `Unknown`; otherwise the
lowercased string is searched for buy/purchase/sell/sale; any other value is
returned unchanged.
-/

def normalizeTransaction (type : String) : String :=
  if type = "" then "Unknown"
  else
    let t := type.data.map jsToLower
    if containsSub t "buy".data || containsSub t "purchase".data then "Purchase"
    else if containsSub t "sell".data || containsSub t "sale".data then "Sale"
    else type

/-!
## Congressional records, the placeholder path and response assembly
(src/server.js `/congress`, PDF-parsing variant, lines 114-222)
-/

/-- The normalized record pushed by the `/congress` handler (both the parsed
trades and the fallback placeholders have this shape). -/
structure HouseRecord where
  Representative : String
  Party : String
  Chamber : String
  State : String
  Ticker : String
  Company : String
  Amount : String
  Date : String
  Filed : String
  Transaction : String
  Committee : String
  FilingUrl : String
deriving DecidableEq

/-- A FilingReference scanned from the index XML:
`{ name, state, date, docId, year }` (the year is only interpolated into the
PDF URL, so it is kept as its string rendering). -/
structure Filing where
  name : String
  state : String
  date : String
  docId : String
  year : String
deriving DecidableEq

/-- The per-filing PDF URL
`https://disclosures-clerk.house.gov/public_disc/ptr-pdfs/${year}/${docId}.pdf`. -/
def pdfUrl (f : Filing) : String :=
  "https://disclosures-clerk.house.gov/public_disc/ptr-pdfs/" ++ f.year ++ "/" ++
    f.docId ++ ".pdf"

/-- The fallback placeholder record pushed onto `filingsMeta` when the PDF is
unavailable, parsing throws, or extraction yields no trades. -/
def placeholderOf (f : Filing) : HouseRecord :=
  { Representative := f.name, Party := "?", Chamber := "House", State := f.state,
    Ticker := "?", Company := "See filing", Amount := "See filing", Date := f.date,
    Filed := f.date, Transaction := "Purchase/Sale", Committee := "",
    FilingUrl := pdfUrl f }

/-- A parsed trade mapped to the normalized record
(`Company: t.asset || '?'`). -/
def tradeRecordOf (f : Filing) (t : Trade) : HouseRecord :=
  { Representative := f.name, Party := "?", Chamber := "House", State := f.state,
    Ticker := t.ticker, Company := (if t.asset = "" then "?" else t.asset),
    Amount := t.amount, Date := f.date, Filed := f.date, Transaction := t.type,
    Committee := "", FilingUrl := pdfUrl f }

/-- The observable outcome of one per-filing detail fetch: a non-OK HTTP
status, a thrown error (network failure, timeout, `pdfParse` failure), or the
extracted PDF text. -/
inductive DetailOutcome where
  | fetchFail : DetailOutcome
  | exn : DetailOutcome
  | ok : String → DetailOutcome
deriving DecidableEq

/-- One iteration of the per-filing batch body: the pair of contributions to
`allTrades` and to `filingsMeta`. -/
def processFiling (f : Filing) (o : DetailOutcome) : List HouseRecord × List HouseRecord :=
  match o with
  | .fetchFail => ([], [placeholderOf f])
  | .exn => ([], [placeholderOf f])
  | .ok text =>
    let ts := parseTradesFromPdfText text
    if ts.isEmpty then ([], [placeholderOf f])
    else (ts.map (tradeRecordOf f), [])

/-- The whole batch (`Promise.all` over the filings): the two accumulator
arrays.  Pushes from concurrent per-filing tasks interleave in completion
order inside each array; the embedding fixes list order, which is immaterial
to the counting properties proved below. -/
def processBatch : List (Filing × DetailOutcome) → List HouseRecord × List HouseRecord
  | [] => ([], [])
  | (f, o) :: rest =>
    ((processFiling f o).1 ++ (processBatch rest).1,
     (processFiling f o).2 ++ (processBatch rest).2)

/-- The detail fetch/extraction failed for this filing: non-OK status, thrown
error, or zero extracted trades. -/
def failsDetail (o : DetailOutcome) : Prop :=
  match o with
  | .fetchFail => True
  | .exn => True
  | .ok text => parseTradesFromPdfText text = []

instance (o : DetailOutcome) : Decidable (failsDetail o) :=
  match o with
  | .fetchFail => isTrue trivial
  | .exn => isTrue trivial
  | .ok text => inferInstanceAs (Decidable (parseTradesFromPdfText text = []))

/-- JS `new Date("YYYY-MM-DD").getTime()` as used by the date-descending sort
comparator, modelled on ISO dates by the order-isomorphic key
`year*10000 + month*100 + day`; any other shape gets key 0 (the comparator
result is then meaningless in JS too — only the sort's length preservation is
relied on below). -/
def dateKey (s : String) : Nat :=
  match s.data with
  | [y1, y2, y3, y4, h1, m1, m2, h2, d1, d2] =>
    if h1 = '-' ∧ h2 = '-' ∧ isDigit09 y1 ∧ isDigit09 y2 ∧ isDigit09 y3 ∧
        isDigit09 y4 ∧ isDigit09 m1 ∧ isDigit09 m2 ∧ isDigit09 d1 ∧ isDigit09 d2 then
      (((y1.toNat - 48) * 1000 + (y2.toNat - 48) * 100 + (y3.toNat - 48) * 10 +
        (y4.toNat - 48)) * 10000) +
      ((m1.toNat - 48) * 10 + (m2.toNat - 48)) * 100 +
      ((d1.toNat - 48) * 10 + (d2.toNat - 48))
    else 0
  | _ => 0

/-- Stable insertion (descending by date key) of one record into a sorted
list: the record goes before the first strictly older record. -/
def insDate (r : HouseRecord) : List HouseRecord → List HouseRecord
  | [] => [r]
  | x :: xs =>
    if dateKey x.Date ≤ dateKey r.Date then r :: x :: xs else x :: insDate r xs

/-- The sort `combined.sort((a,b) => new Date(b.Date) - new Date(a.Date))`:
a stable sort by descending date (V8's sort is stable). -/
def sortByDateDesc : List HouseRecord → List HouseRecord
  | [] => []
  | r :: rs => insDate r (sortByDateDesc rs)

/-- The response assembly of the PDF-parsing `/congress` variant
(lines 204-216): `count` is the length of the combined array, `withTickers`
the parsed-trade count, and `trades` the first 100 records after the sort. -/
def congressResponse (allTrades filingsMeta : List HouseRecord) :
    Nat × Nat × List HouseRecord :=
  let combined := sortByDateDesc (allTrades ++ filingsMeta)
  (combined.length, allTrades.length, combined.take 100)

/-!
## The source adapter chain (src/unnamed/part_001, `apiAttempts` loop)

Each attempt fetches one upstream source, maps its payload to normalized
records, and the handler returns on the first attempt whose mapped batch is
nonempty; a failed fetch, an unexpected shape, or an empty mapping falls
through to the next attempt.  An adapter is modelled by its name and the
batch it would produce (the empty batch standing for any failure).
-/

structure Adapter where
  source : String
  batch : List HouseRecord
deriving DecidableEq

/-- The `for (const attempt of apiAttempts)` loop: the committed
`(source, trades)` pair, if any, together with how many adapters were
invoked before the loop stopped. -/
def runChain : List Adapter → Option (String × List HouseRecord) × Nat
  | [] => (none, 0)
  | a :: rest =>
    if a.batch.isEmpty then ((runChain rest).1, (runChain rest).2 + 1)
    else (some (a.source, a.batch), 1)

/-!
## Insider-trade clustering (src/server.js `/insiders`, OpenInsider variant,
lines 460-494)
-/

/-- An insider trade as consumed by the clusterer (only the ticker, company
and type fields are read by it). -/
structure ITrade where
  ticker : String
  company : String
  type : String
deriving DecidableEq

/-- The per-ticker buy/sell cluster. -/
structure Cluster where
  ticker : String
  company : String
  buys : List ITrade
  sells : List ITrade
deriving DecidableEq

/-- Append a trade to a cluster's buy or sell list
(`if (t.type === 'Purchase') ... buys.push(t); else ... sells.push(t)`). -/
def addToCluster (c : Cluster) (t : ITrade) : Cluster :=
  if t.type = "Purchase" then { c with buys := c.buys ++ [t] }
  else { c with sells := c.sells ++ [t] }

/-- Insert one trade into the association list of clusters, creating the
cluster (with the trade's company) on first appearance of its ticker.
Object properties with these string keys enumerate in insertion order, so
`Object.values(byTicker)` is this list. -/
def insertTrade : List Cluster → ITrade → List Cluster
  | [], t => [addToCluster { ticker := t.ticker, company := t.company,
                             buys := [], sells := [] } t]
  | c :: cs, t =>
    if c.ticker = t.ticker then addToCluster c t :: cs
    else c :: insertTrade cs t

/-- The loop `trades.forEach(...)` building `byTicker`, skipping falsy (empty) tickers. -/
def groupByTicker (ts : List ITrade) : List Cluster :=
  ts.foldl (fun acc t => if t.ticker = "" then acc else insertTrade acc t) []

/-- The comparator key: total transaction count `buys.length + sells.length`. -/
def totalOf (c : Cluster) : Nat := c.buys.length + c.sells.length

/-- Stable insertion for the descending-by-total sort: an element moves ahead
of another only when its total is strictly larger, so equal totals keep
their original relative order (V8's sort is stable). -/
def insClus (c : Cluster) : List Cluster → List Cluster
  | [] => [c]
  | d :: ds => if totalOf d ≤ totalOf c then c :: d :: ds else d :: insClus c ds

/-- The comparator sort by descending `buys.length + sells.length`. -/
def sortClusters : List Cluster → List Cluster
  | [] => []
  | c :: cs => insClus c (sortClusters cs)

/-- The clustered output: group, sort descending by total, `.slice(0, 30)`. -/
def clusteredOf (ts : List ITrade) : List Cluster :=
  (sortClusters (groupByTicker ts)).take 30

/-!
## Spec-side definitions for the refinement claims
-/

/-- The deduplication key triple of the spec, `(ticker, transaction_type,
amount)`. -/
def tripleOf (t : Trade) : String × String × String := (t.ticker, t.type, t.amount)

/-- Modelled from the spec (§4.3 Deduplicator): remove exact duplicates keyed
on the `(ticker, transaction_type, amount)` triple, keeping the first
occurrence of each triple in input order. -/
def specDedupAux : List (String × String × String) → List Trade → List Trade
  | _, [] => []
  | seen, t :: rest =>
    if tripleOf t ∈ seen then specDedupAux seen rest
    else t :: specDedupAux (tripleOf t :: seen) rest

/-- Modelled from the spec: the Deduplicator with nothing seen yet. -/
def specDedup (ts : List Trade) : List Trade := specDedupAux [] ts

/-- The spec's ticker invariant: the sentinel `?` or 1-5 uppercase letters. -/
def validTicker (s : String) : Prop :=
  s = "?" ∨ (s.data ≠ [] ∧ s.data.length ≤ 5 ∧ ∀ c ∈ s.data, isUpperAZ c = true)

instance (s : String) : Decidable (validTicker s) := by
  unfold validTicker; infer_instance

/-- The spec's four enumerated transaction types. -/
def txTypes : List String := ["Purchase", "Sale", "Exchange", "Unknown"]

/-- The spec's TradeFact shape invariant (§3): a valid ticker and one of the
four enumerated transaction types. -/
def ValidFact (t : Trade) : Prop := validTicker t.ticker ∧ t.type ∈ txTypes

instance (t : Trade) : Decidable (ValidFact t) := by
  unfold ValidFact; infer_instance

/-!
## Concrete fixtures used by witnesses
-/

/-- A concrete normalized record. -/
def recW : HouseRecord :=
  { Representative := "Jane Roe", Party := "?", Chamber := "House", State := "CA",
    Ticker := "WAT", Company := "Waters Corp", Amount := "$1,001 - $15,000",
    Date := "2025-12-08", Filed := "2025-12-08", Transaction := "Purchase",
    Committee := "", FilingUrl := "https://example.org/f.pdf" }

/-- A concrete filing reference. -/
def filingA : Filing :=
  { name := "Jane Roe", state := "CA", date := "2025-12-01", docId := "20012345",
    year := "2025" }

/-- A second concrete filing reference. -/
def filingB : Filing :=
  { name := "John Doe", state := "TX", date := "2025-11-20", docId := "20012346",
    year := "2025" }

/-!
## Claim theorems
-/

/-- C1: evaluation of the flattened-stream extractor at the claim's input.
The spec requires zero TradeFacts for
`"(IRA) P 01/01/2025 01/02/2025 $1,000"`, but Strategy 1 of the code has no
denylist: it binds the parenthetical ownership code `IRA` as the current
ticker and emits one trade (Strategy 2 skips `IRA`, but the Strategy 1 record
survives deduplication). -/
theorem parse_binds_denylisted_ira :
    parseTradesFromPdfText "(IRA) P 01/01/2025 01/02/2025 $1,000" =
      [{ ticker := "IRA", asset := "(IRA) P 01/01/2025 01/02/2025 $1,000",
         type := "Purchase", amount := "$1,000" }] := by
  decide

/-- C2: on the literal line
`"(WAT) [ST] P 12/08/2025 01/01/2026 $1,001 - $15,000"` the extractor
returns exactly one record, with ticker `WAT`, type `Purchase` and amount
`"$1,001 - $15,000"`; the duplicate produced by the Strategy 2 fallback
grammar is removed by deduplication. -/
theorem parse_wat_line_single_trade :
    parseTradesFromPdfText "(WAT) [ST] P 12/08/2025 01/01/2026 $1,001 - $15,000" =
      [{ ticker := "WAT",
         asset := "(WAT) [ST] P 12/08/2025 01/01/2026 $1,001 - $15,000",
         type := "Purchase", amount := "$1,001 - $15,000" }] := by
  decide

/-- C9: the extractor is total — for every input string it reaches the `ok`
path of the error channel (no operation in its body throws) and returns the
list of trades, possibly empty. -/
theorem parse_never_throws (text : String) :
    ∃ ts : List Trade, parseTradesFromPdfTextE text = Except.ok ts ∧
      ts = parseTradesFromPdfText text :=
  ⟨parseTradesFromPdfText text, rfl, rfl⟩

/-- C3: the adapter chain commits to the first adapter with a nonempty batch:
if every adapter before `a` produces an empty batch and `a`'s batch is
nonempty, the chain returns exactly `a`'s batch, and the number of adapters
invoked is the position of `a` — no adapter after it runs, and nothing from
them is merged in. -/
theorem chain_commits_first_nonempty (pre post : List Adapter) (a : Adapter)
    (hpre : ∀ x ∈ pre, x.batch = []) (ha : a.batch ≠ []) :
    runChain (pre ++ a :: post) = (some (a.source, a.batch), pre.length + 1) := by
  induction pre with
  | nil =>
    simp only [List.nil_append, runChain, List.length_nil]
    rw [if_neg (by simp [List.isEmpty_eq_true, ha])]
  | cons x xs ih =>
    have hx : x.batch = [] := hpre x (by simp)
    have ih2 := ih (fun y hy => hpre y (by simp [hy]))
    show runChain (x :: (xs ++ a :: post)) = _
    simp only [runChain]
    rw [if_pos (by simp [List.isEmpty_eq_true, hx])]
    show ((runChain (xs ++ a :: post)).1, (runChain (xs ++ a :: post)).2 + 1) = _
    rw [ih2]
    simp

/-- Witness for C3: a three-adapter chain — the first empty, the second with
5 records, the third with 10 — commits to the second's 5 records after
invoking only two adapters. -/
theorem chain_commits_first_nonempty_witness :
    runChain ([Adapter.mk "Capitol Trades" []] ++
        Adapter.mk "House Stock Watcher" (List.replicate 5 recW) ::
        [Adapter.mk "Senate Stock Watcher" (List.replicate 10 recW)]) =
      (some ("House Stock Watcher", List.replicate 5 recW), 2) ∧
    (List.replicate 5 recW).length = 5 :=
  ⟨chain_commits_first_nonempty [Adapter.mk "Capitol Trades" []]
      [Adapter.mk "Senate Stock Watcher" (List.replicate 10 recW)]
      (Adapter.mk "House Stock Watcher" (List.replicate 5 recW))
      (by decide) (by decide),
   by decide⟩

/-- A failed per-filing detail step contributes exactly the one placeholder
record to `filingsMeta` and nothing to `allTrades`. -/
theorem processFiling_fails (f : Filing) (o : DetailOutcome) (h : failsDetail o) :
    processFiling f o = ([], [placeholderOf f]) := by
  cases o with
  | fetchFail => rfl
  | exn => rfl
  | ok text =>
    simp only [failsDetail] at h
    simp [processFiling, h]

/-- C4: placeholder degradation preserves filing counts — every filing whose
detail fetch or extraction fails (non-OK status, thrown error, or zero
extracted trades) contributes exactly one placeholder record with ticker
`?`, and when all detail steps fail the number of output records equals the
number of input filings. -/
theorem placeholder_degradation (ps : List (Filing × DetailOutcome))
    (h : ∀ p ∈ ps, failsDetail p.2) :
    (∀ p ∈ ps, processFiling p.1 p.2 = ([], [placeholderOf p.1]) ∧
      (placeholderOf p.1).Ticker = "?") ∧
    (processBatch ps).1 = [] ∧ (processBatch ps).2.length = ps.length := by
  constructor
  · intro p hp
    exact ⟨processFiling_fails p.1 p.2 (h p hp), rfl⟩
  · induction ps with
    | nil => exact ⟨rfl, rfl⟩
    | cons p rest ih =>
      obtain ⟨f, o⟩ := p
      have h1 := processFiling_fails f o (h (f, o) (by simp))
      have ih2 := ih (fun q hq => h q (by simp [hq]))
      refine ⟨?_, ?_⟩
      · simp [processBatch, h1, ih2.1]
      · simp [processBatch, h1, ih2.2]

/-- Witness for C4: a two-filing batch in which one detail fetch returns a
non-OK status and the other's PDF text yields no trades produces no parsed
records and exactly two placeholders. -/
theorem placeholder_degradation_witness :
    (∀ p ∈ [(filingA, DetailOutcome.fetchFail), (filingB, DetailOutcome.ok "hello")],
      failsDetail p.2) ∧
    (processBatch [(filingA, DetailOutcome.fetchFail),
        (filingB, DetailOutcome.ok "hello")]).1 = [] ∧
    (processBatch [(filingA, DetailOutcome.fetchFail),
        (filingB, DetailOutcome.ok "hello")]).2.length = 2 :=
  ⟨by decide,
   (placeholder_degradation _ (by decide)).2.1,
   (placeholder_degradation _ (by decide)).2.2⟩

/-- Stable date-descending insertion adds exactly one record. -/
theorem insDate_length (r : HouseRecord) (l : List HouseRecord) :
    (insDate r l).length = l.length + 1 := by
  induction l with
  | nil => rfl
  | cons x xs ih =>
    simp only [insDate]
    split
    · simp
    · simp [ih]

/-- The date-descending sort preserves length. -/
theorem sortByDateDesc_length (l : List HouseRecord) :
    (sortByDateDesc l).length = l.length := by
  induction l with
  | nil => rfl
  | cons r rs ih => simp [sortByDateDesc, insDate_length, ih]

/-- C10: in the PDF-parsing `/congress` response, `count` is the number of
combined records (parsed trades plus placeholders) before truncation, while
`trades` is the first 100 of the sorted combined list; whenever more than
100 records are combined, `count` strictly exceeds the length of `trades`. -/
theorem count_exceeds_truncated_trades (a m : List HouseRecord) :
    (congressResponse a m).1 = a.length + m.length ∧
    (congressResponse a m).2.2 = (sortByDateDesc (a ++ m)).take 100 ∧
    (congressResponse a m).2.2.length = min 100 (a.length + m.length) ∧
    (100 < a.length + m.length →
      (congressResponse a m).2.2.length < (congressResponse a m).1) := by
  refine ⟨?_, rfl, ?_, ?_⟩
  · simp [congressResponse, sortByDateDesc_length]
  · simp [congressResponse, List.length_take, sortByDateDesc_length]
  · intro h
    simp [congressResponse, List.length_take, sortByDateDesc_length]
    omega

/-- Witness for C10: with 101 combined records, `count` is 101 but `trades`
has only 100 entries. -/
theorem count_exceeds_truncated_trades_witness :
    100 < (List.replicate 101 recW).length + ([] : List HouseRecord).length ∧
    (congressResponse (List.replicate 101 recW) []).2.2.length <
      (congressResponse (List.replicate 101 recW) []).1 :=
  ⟨by simp,
   (count_exceeds_truncated_trades (List.replicate 101 recW) []).2.2.2 (by simp)⟩

/-- Running the dedup filter again over its own output, with the same initial
seen-set, removes nothing. -/
theorem dedupAux_idem (ts : List Trade) : ∀ seen : List String,
    dedupAux seen (dedupAux seen ts) = dedupAux seen ts := by
  induction ts with
  | nil => intro seen; rfl
  | cons t rest ih =>
    intro seen
    by_cases h1 : t.ticker.length < 1 ∨ t.ticker.length > 5
    · simp only [dedupAux, if_pos h1]
      exact ih seen
    · by_cases h2 : keyOf t ∈ seen
      · simp only [dedupAux, if_neg h1, if_pos h2]
        exact ih seen
      · simp only [dedupAux, if_neg h1, if_neg h2]
        rw [ih (keyOf t :: seen)]

/-- C7: deduplication is idempotent — applying the Deduplicator to its own
output yields that same output. -/
theorem dedup_idempotent (ts : List Trade) :
    dedupTrades (dedupTrades ts) = dedupTrades ts :=
  dedupAux_idem ts []

/-- Members of `insClus c s` are `c` or members of `s`. -/
theorem insClus_mem (c : Cluster) (s : List Cluster) (x : Cluster)
    (hx : x ∈ insClus c s) : x = c ∨ x ∈ s := by
  induction s with
  | nil =>
    simp only [insClus, List.mem_singleton] at hx
    exact Or.inl hx
  | cons d ds ih =>
    simp only [insClus] at hx
    by_cases hc : totalOf d ≤ totalOf c
    · rw [if_pos hc] at hx
      rcases List.mem_cons.mp hx with rfl | hx2
      · exact Or.inl rfl
      · exact Or.inr hx2
    · rw [if_neg hc] at hx
      rcases List.mem_cons.mp hx with rfl | hx2
      · exact Or.inr (List.mem_cons_self _ _)
      · rcases ih hx2 with rfl | h3
        · exact Or.inl rfl
        · exact Or.inr (List.mem_cons_of_mem _ h3)

/-- Stable insertion preserves the descending-by-total ordering. -/
theorem insClus_pairwise (c : Cluster) (s : List Cluster)
    (hs : s.Pairwise (fun a b => totalOf b ≤ totalOf a)) :
    (insClus c s).Pairwise (fun a b => totalOf b ≤ totalOf a) := by
  induction s with
  | nil => simp [insClus]
  | cons d ds ih =>
    have hd : ∀ x ∈ ds, totalOf x ≤ totalOf d := (List.pairwise_cons.mp hs).1
    have hds := (List.pairwise_cons.mp hs).2
    simp only [insClus]
    by_cases hc : totalOf d ≤ totalOf c
    · rw [if_pos hc]
      refine List.Pairwise.cons ?_ hs
      intro x hx
      rcases List.mem_cons.mp hx with rfl | h2
      · exact hc
      · exact Nat.le_trans (hd x h2) hc
    · rw [if_neg hc]
      refine List.Pairwise.cons ?_ (ih hds)
      intro x hx
      rcases insClus_mem c ds x hx with rfl | h2
      · exact Nat.le_of_lt (Nat.lt_of_not_le hc)
      · exact hd x h2

/-- The descending-by-total sort produces a descending list. -/
theorem sortClusters_pairwise (s : List Cluster) :
    (sortClusters s).Pairwise (fun a b => totalOf b ≤ totalOf a) := by
  induction s with
  | nil => simp [sortClusters]
  | cons c cs ih => exact insClus_pairwise c (sortClusters cs) ih

/-- Stable insertion keeps every slice of equal totals intact: the inserted
element lands in front of the equal-total elements already present (it came
earlier in the original list), and all other slices are untouched. -/
theorem insClus_filter (c : Cluster) (s : List Cluster) (n : Nat) :
    (insClus c s).filter (fun g => totalOf g == n) =
      (if totalOf c = n then [c] else []) ++ s.filter (fun g => totalOf g == n) := by
  induction s with
  | nil => by_cases hn : totalOf c = n <;> simp [insClus, hn]
  | cons d ds ih =>
    by_cases hc : totalOf d ≤ totalOf c
    · simp only [insClus, if_pos hc]
      by_cases hn : totalOf c = n <;> by_cases hdn : totalOf d = n <;>
        simp [List.filter_cons, hn, hdn]
    · simp only [insClus, if_neg hc]
      by_cases hn : totalOf c = n
      · have hdn : ¬ totalOf d = n := by omega
        simp [List.filter_cons, hn, hdn, ih]
      · simp [List.filter_cons, hn, ih]

/-- Stability of the cluster sort: for every total value, the clusters having
that total appear in the sorted list exactly as they appear (in first-creation
order) in the grouped list. -/
theorem sortClusters_filter (s : List Cluster) (n : Nat) :
    (sortClusters s).filter (fun g => totalOf g == n) =
      s.filter (fun g => totalOf g == n) := by
  induction s with
  | nil => rfl
  | cons c cs ih =>
    simp only [sortClusters]
    rw [insClus_filter, ih]
    by_cases hn : totalOf c = n <;> simp [List.filter_cons, hn]

/-- C8: the clustered output is the descending-by-total sort of the
first-appearance-ordered ticker groups, truncated to at most 30 clusters;
the sort is stable, so clusters with equal totals keep the relative order in
which their first members appeared in the input. -/
theorem clusters_sorted_stable_truncated (ts : List ITrade) :
    clusteredOf ts = (sortClusters (groupByTicker ts)).take 30 ∧
    (clusteredOf ts).length ≤ 30 ∧
    (sortClusters (groupByTicker ts)).Pairwise (fun a b => totalOf b ≤ totalOf a) ∧
    (∀ n, (sortClusters (groupByTicker ts)).filter (fun g => totalOf g == n) =
      (groupByTicker ts).filter (fun g => totalOf g == n)) ∧
    (clusteredOf ts).Pairwise (fun a b => totalOf b ≤ totalOf a) := by
  refine ⟨rfl, List.length_take_le 30 _, sortClusters_pairwise _,
    fun n => sortClusters_filter _ n, ?_⟩
  exact (sortClusters_pairwise (groupByTicker ts)).sublist (List.take_sublist 30 _)

/-- An uppercase and a lowercase ASCII letter are never the same character. -/
theorem upper_lower_absurd (c : Char) (h1 : isUpperAZ c = true)
    (h2 : isLowerAZ c = true) : False := by
  simp [isUpperAZ, isLowerAZ] at h1 h2
  omega

/-- List-level form of the spec's ticker invariant. -/
def upperTickerL (l : List Char) : Prop :=
  l = ['?'] ∨ (l ≠ [] ∧ l.length ≤ 5 ∧ ∀ c ∈ l, isUpperAZ c = true)

/-- The predicate `validTicker` transported to the underlying character list. -/
theorem validTicker_data (s : String) : validTicker s ↔ upperTickerL s.data := by
  unfold validTicker upperTickerL
  constructor
  · rintro (rfl | h)
    · exact Or.inl rfl
    · exact Or.inr h
  · rintro (hq | h)
    · exact Or.inl (String.ext hq)
    · exact Or.inr h

/-- The four enumerated types as character lists. -/
def txTypesL : List (List Char) :=
  ["Purchase".data, "Sale".data, "Exchange".data, "Unknown".data]

theorem mem_txTypes_data (s : String) (h : s ∈ txTypes) : s.data ∈ txTypesL := by
  fin_cases h <;> simp [txTypesL]

theorem txTypesL_cases (y : List Char) (hy : y ∈ txTypesL) :
    y = "Purchase".data ∨ y = "Sale".data ∨ y = "Exchange".data ∨ y = "Unknown".data := by
  simpa [txTypesL] using hy

/-- Every enumerated type is an uppercase letter followed by a lowercase
letter and a tail. -/
theorem txTypesL_shape (y : List Char) (hy : y ∈ txTypesL) :
    ∃ c d r, y = c :: d :: r ∧ isUpperAZ c = true ∧ isLowerAZ d = true := by
  rcases txTypesL_cases y hy with rfl | rfl | rfl | rfl
  · exact ⟨'P', 'u', "rchase".data, rfl, rfl, rfl⟩
  · exact ⟨'S', 'a', "le".data, rfl, rfl, rfl⟩
  · exact ⟨'E', 'x', "change".data, rfl, rfl, rfl⟩
  · exact ⟨'U', 'n', "known".data, rfl, rfl, rfl⟩

/-- The four enumerated types are distinguished by their first character. -/
theorem txTypesL_head_det (y z : List Char) (hy : y ∈ txTypesL) (hz : z ∈ txTypesL)
    (hhead : y.head? = z.head?) : y = z := by
  rcases txTypesL_cases y hy with rfl | rfl | rfl | rfl <;>
    rcases txTypesL_cases z hz with rfl | rfl | rfl | rfl <;>
    first
      | rfl
      | exact absurd hhead (by decide)

theorem upperTickerL_ne_nil (A : List Char) (hA : upperTickerL A) : A ≠ [] := by
  rcases hA with rfl | ⟨h, _, _⟩
  · simp
  · exact h

/-- A valid ticker that properly extends a nonempty list consists of
uppercase letters beyond that list. -/
theorem upperTickerL_append_cons (A : List Char) (e : Char) (p2 : List Char)
    (hA : A ≠ []) (hB : upperTickerL (A ++ e :: p2)) :
    ∀ c ∈ e :: p2, isUpperAZ c = true := by
  rcases hB with hq | ⟨_, _, h⟩
  · exfalso
    have hlen := congrArg List.length hq
    have hAl : 0 < A.length := List.length_pos.mpr hA
    simp [List.length_append] at hlen
    omega
  · intro c hc
    exact h c (by simp [hc])

/-- If a key splits as ticker ++ type ++ amount in two ways with valid
tickers and enumerated types, the ticker boundary is forced: the candidate
overhang is empty. -/
theorem key_prefix_nil (A p Y Z M N : List Char)
    (hA : A ≠ []) (hB : upperTickerL (A ++ p))
    (hY : Y ∈ txTypesL) (hZ : Z ∈ txTypesL)
    (hr : Y ++ M = p ++ (Z ++ N)) : p = [] := by
  cases p with
  | nil => rfl
  | cons e p2 =>
    exfalso
    obtain ⟨c, d, r, hYs, hcU, hdL⟩ := txTypesL_shape Y hY
    subst hYs
    have hup := upperTickerL_append_cons A e p2 hA hB
    have hr2 : c :: (d :: r ++ M) = e :: (p2 ++ (Z ++ N)) := hr
    have hr3 : d :: (r ++ M) = p2 ++ (Z ++ N) := (List.cons.inj hr2).2
    cases p2 with
    | nil =>
      obtain ⟨c2, d2, r2, hZs, hc2U, _⟩ := txTypesL_shape Z hZ
      subst hZs
      have hr4 : d :: (r ++ M) = c2 :: (d2 :: r2 ++ N) := hr3
      have hdc2 : d = c2 := (List.cons.inj hr4).1
      exact upper_lower_absurd d (hdc2 ▸ hc2U) hdL
    | cons e2 p3 =>
      have hde2 : d = e2 := (List.cons.inj hr3).1
      have he2U : isUpperAZ e2 = true := hup e2 (by simp)
      exact upper_lower_absurd d (hde2 ▸ he2U) hdL

/-- Key injectivity at the list level: with valid tickers and enumerated
types, equal concatenations force equal components. -/
theorem key_components_inj (A B Y Z M N : List Char)
    (hA : upperTickerL A) (hB : upperTickerL B)
    (hY : Y ∈ txTypesL) (hZ : Z ∈ txTypesL)
    (he : A ++ (Y ++ M) = B ++ (Z ++ N)) : A = B ∧ Y = Z ∧ M = N := by
  have hAne := upperTickerL_ne_nil A hA
  have hBne := upperTickerL_ne_nil B hB
  have hAB : A = B := by
    rcases List.append_eq_append_iff.mp he with ⟨p, hp, hr⟩ | ⟨p, hp, hr⟩
    · have hpnil : p = [] :=
        key_prefix_nil A p Y Z M N hAne (by rw [hp] at hB; exact hB) hY hZ hr
      rw [hp, hpnil, List.append_nil]
    · have hpnil : p = [] :=
        key_prefix_nil B p Z Y N M hBne (by rw [hp] at hA; exact hA) hZ hY hr
      rw [hp, hpnil, List.append_nil]
  subst hAB
  have hcancel : Y ++ M = Z ++ N := List.append_cancel_left he
  obtain ⟨c, d, r, hYs, _, _⟩ := txTypesL_shape Y hY
  obtain ⟨c2, d2, r2, hZs, _, _⟩ := txTypesL_shape Z hZ
  have hcc : c = c2 := by
    rw [hYs, hZs] at hcancel
    have h2 : c :: (d :: r ++ M) = c2 :: (d2 :: r2 ++ N) := hcancel
    exact (List.cons.inj h2).1
  have hYZ : Y = Z := by
    refine txTypesL_head_det Y Z hY hZ ?_
    rw [hYs, hZs, hcc]
    rfl
  have hMN : M = N := by
    have h3 : Y ++ M = Y ++ N := by rw [hYZ] at hcancel ⊢; exact hcancel
    exact List.append_cancel_left h3
  exact ⟨rfl, hYZ, hMN⟩

/-- Key injectivity for valid TradeFacts: equal `ticker + type + amount`
keys force equal `(ticker, type, amount)` triples. -/
theorem keyOf_inj (t1 t2 : Trade) (h1 : ValidFact t1) (h2 : ValidFact t2)
    (he : keyOf t1 = keyOf t2) : tripleOf t1 = tripleOf t2 := by
  have hd : t1.ticker.data ++ (t1.type.data ++ t1.amount.data) =
      t2.ticker.data ++ (t2.type.data ++ t2.amount.data) := by
    have h0 := congrArg String.data he
    simpa [keyOf, String.data_append, List.append_assoc] using h0
  obtain ⟨hT, hY, hM⟩ := key_components_inj _ _ _ _ _ _
    ((validTicker_data _).mp h1.1) ((validTicker_data _).mp h2.1)
    (mem_txTypes_data _ h1.2) (mem_txTypes_data _ h2.2) hd
  simp [tripleOf, String.ext hT, String.ext hY, String.ext hM]

theorem validFact_ticker_len (t : Trade) (h : ValidFact t) :
    1 ≤ t.ticker.length ∧ t.ticker.length ≤ 5 := by
  rcases h.1 with hq | ⟨hne, hle, _⟩
  · rw [hq]
    exact ⟨by decide, by decide⟩
  · have hlen : t.ticker.length = t.ticker.data.length := rfl
    exact ⟨by rw [hlen]; exact List.length_pos.mpr hne, by rw [hlen]; exact hle⟩

/-- On valid TradeFacts, the code's dedup filter (keyed on the concatenated
string, with the ticker-length guard) agrees step for step with the spec's
triple-keyed first-occurrence dedup. -/
theorem dedupAux_eq_specAux (ts : List Trade) : ∀ fs : List Trade,
    (∀ t ∈ ts, ValidFact t) → (∀ f ∈ fs, ValidFact f) →
    dedupAux (fs.map keyOf) ts = specDedupAux (fs.map tripleOf) ts := by
  induction ts with
  | nil => intro fs _ _; rfl
  | cons t rest ih =>
    intro fs hts hfs
    have hvt : ValidFact t := hts t (by simp)
    have hlen := validFact_ticker_len t hvt
    have hguard : ¬ (t.ticker.length < 1 ∨ t.ticker.length > 5) := by omega
    have hmem : (keyOf t ∈ fs.map keyOf) ↔ (tripleOf t ∈ fs.map tripleOf) := by
      simp only [List.mem_map]
      constructor
      · rintro ⟨f, hf, hkey⟩
        exact ⟨f, hf, keyOf_inj f t (hfs f hf) hvt hkey⟩
      · rintro ⟨f, hf, htr⟩
        refine ⟨f, hf, ?_⟩
        have hc : f.ticker = t.ticker ∧ f.type = t.type ∧ f.amount = t.amount := by
          simpa [tripleOf, Prod.ext_iff] using htr
        simp [keyOf, hc.1, hc.2.1, hc.2.2]
    simp only [dedupAux, specDedupAux, if_neg hguard]
    by_cases hk : tripleOf t ∈ fs.map tripleOf
    · rw [if_pos (hmem.mpr hk), if_pos hk]
      exact ih fs (fun x hx => hts x (by simp [hx])) hfs
    · rw [if_neg (fun hc => hk (hmem.mp hc)), if_neg hk]
      have hrec := ih (t :: fs) (fun x hx => hts x (by simp [hx]))
        (fun f hf => by
          rcases List.mem_cons.mp hf with rfl | hfm
          · exact hvt
          · exact hfs f hfm)
      simpa using hrec

/-- Nothing in the spec dedup's output has a triple in the seen set. -/
theorem specDedupAux_not_mem (ts : List Trade) :
    ∀ (seen : List (String × String × String)) (x : Trade),
      x ∈ specDedupAux seen ts → tripleOf x ∉ seen := by
  induction ts with
  | nil => intro seen x hx; simp [specDedupAux] at hx
  | cons t rest ih =>
    intro seen x hx
    simp only [specDedupAux] at hx
    by_cases h : tripleOf t ∈ seen
    · rw [if_pos h] at hx
      exact ih seen x hx
    · rw [if_neg h] at hx
      rcases List.mem_cons.mp hx with rfl | h2
      · exact h
      · intro hc
        exact ih (tripleOf t :: seen) x h2 (by simp [hc])

/-- The spec dedup's output has pairwise distinct triples. -/
theorem specDedupAux_pairwise (ts : List Trade) :
    ∀ seen : List (String × String × String),
      (specDedupAux seen ts).Pairwise (fun a b => tripleOf a ≠ tripleOf b) := by
  induction ts with
  | nil => intro seen; simp [specDedupAux]
  | cons t rest ih =>
    intro seen
    simp only [specDedupAux]
    by_cases h : tripleOf t ∈ seen
    · rw [if_pos h]
      exact ih seen
    · rw [if_neg h]
      refine List.Pairwise.cons ?_ (ih (tripleOf t :: seen))
      intro x hx hc
      exact specDedupAux_not_mem rest (tripleOf t :: seen) x hx (by simp [hc])

/-- The dedup filter's output is a subsequence of its input. -/
theorem dedupAux_sublist (ts : List Trade) :
    ∀ seen : List String, List.Sublist (dedupAux seen ts) ts := by
  induction ts with
  | nil => intro seen; simp [dedupAux]
  | cons t rest ih =>
    intro seen
    simp only [dedupAux]
    by_cases h1 : t.ticker.length < 1 ∨ t.ticker.length > 5
    · rw [if_pos h1]
      exact (ih seen).cons t
    · rw [if_neg h1]
      by_cases h2 : keyOf t ∈ seen
      · rw [if_pos h2]
        exact (ih seen).cons t
      · rw [if_neg h2]
        exact (ih (keyOf t :: seen)).cons₂ t

/-- C6: on any sequence of TradeFacts (valid tickers, enumerated types), the
Deduplicator returns exactly the first occurrence of each
`(ticker, transaction_type, amount)` triple in input order: it equals the
spec's triple-keyed dedup, its output triples are pairwise distinct, and the
output is a subsequence of the input (first-seen order preserved, nothing
whose triple is new removed). -/
theorem dedup_first_occurrence (ts : List Trade) (h : ∀ t ∈ ts, ValidFact t) :
    dedupTrades ts = specDedup ts ∧
    (dedupTrades ts).Pairwise (fun a b => tripleOf a ≠ tripleOf b) ∧
    List.Sublist (dedupTrades ts) ts := by
  have heq : dedupTrades ts = specDedup ts := by
    have h0 := dedupAux_eq_specAux ts [] h (by simp)
    simpa [dedupTrades, specDedup] using h0
  refine ⟨heq, ?_, dedupAux_sublist ts []⟩
  rw [heq]
  exact specDedupAux_pairwise ts []

/-- Witness for C6 on a concrete batch with a duplicate triple. -/
theorem dedup_first_occurrence_witness :
    (∀ t ∈ [Trade.mk "WAT" "Waters" "Purchase" "$1,000",
            Trade.mk "AAPL" "Apple" "Sale" "$2,000",
            Trade.mk "WAT" "Waters again" "Purchase" "$1,000"], ValidFact t) ∧
    (dedupTrades [Trade.mk "WAT" "Waters" "Purchase" "$1,000",
            Trade.mk "AAPL" "Apple" "Sale" "$2,000",
            Trade.mk "WAT" "Waters again" "Purchase" "$1,000"] =
      specDedup [Trade.mk "WAT" "Waters" "Purchase" "$1,000",
            Trade.mk "AAPL" "Apple" "Sale" "$2,000",
            Trade.mk "WAT" "Waters again" "Purchase" "$1,000"] ∧
      (dedupTrades [Trade.mk "WAT" "Waters" "Purchase" "$1,000",
            Trade.mk "AAPL" "Apple" "Sale" "$2,000",
            Trade.mk "WAT" "Waters again" "Purchase" "$1,000"]).Pairwise
        (fun a b => tripleOf a ≠ tripleOf b) ∧
      List.Sublist (dedupTrades [Trade.mk "WAT" "Waters" "Purchase" "$1,000",
            Trade.mk "AAPL" "Apple" "Sale" "$2,000",
            Trade.mk "WAT" "Waters again" "Purchase" "$1,000"])
        [Trade.mk "WAT" "Waters" "Purchase" "$1,000",
            Trade.mk "AAPL" "Apple" "Sale" "$2,000",
            Trade.mk "WAT" "Waters again" "Purchase" "$1,000"]) :=
  ⟨by decide, dedup_first_occurrence _ (by decide)⟩

/-- A nonempty run of at most five uppercase letters. -/
def upper15 (l : List Char) : Prop :=
  1 ≤ l.length ∧ l.length ≤ 5 ∧ ∀ c ∈ l, isUpperAZ c = true

/-- A nonempty run of at most five ASCII letters (either case). -/
def letter15 (l : List Char) : Prop :=
  1 ≤ l.length ∧ l.length ≤ 5 ∧ ∀ c ∈ l, isLetterAZ c = true

theorem upper15_letter15 (l : List Char) (h : upper15 l) : letter15 l :=
  ⟨h.1, h.2.1, fun c hc => by simp [isLetterAZ, h.2.2 c hc]⟩

theorem parenTickerAt_upper15 (l r : List Char) (h : parenTickerAt l = some r) :
    upper15 r := by
  unfold parenTickerAt at h
  split at h
  case h_2 => exact absurd h (by simp)
  case h_1 rest =>
    dsimp only at h
    by_cases hc : 1 ≤ (rest.takeWhile isUpperAZ).length ∧
        (rest.takeWhile isUpperAZ).length ≤ 5
    · rw [if_pos hc] at h
      split at h
      · injection h with h2
        subst h2
        exact ⟨hc.1, hc.2, fun c hcm => List.mem_takeWhile_imp hcm⟩
      · exact absurd h (by simp)
    · rw [if_neg hc] at h
      exact absurd h (by simp)

theorem bracketTickerAt_upper15 (l r : List Char) (h : bracketTickerAt l = some r) :
    upper15 r := by
  unfold bracketTickerAt at h
  split at h
  case h_2 => exact absurd h (by simp)
  case h_1 rest =>
    dsimp only at h
    by_cases hc : 1 ≤ (rest.takeWhile isUpperAZ).length ∧
        (rest.takeWhile isUpperAZ).length ≤ 5
    · rw [if_pos hc] at h
      split at h
      · split at h
        · exact absurd h (by simp)
        · injection h with h2
          subst h2
          exact ⟨hc.1, hc.2, fun c hcm => List.mem_takeWhile_imp hcm⟩
      · exact absurd h (by simp)
    · rw [if_neg hc] at h
      exact absurd h (by simp)

theorem findParenTicker_upper15 (l : List Char) : ∀ r, findParenTicker l = some r →
    upper15 r := by
  induction l with
  | nil => intro r h; simp [findParenTicker] at h
  | cons c rest ih =>
    intro r h
    simp only [findParenTicker] at h
    cases hp : parenTickerAt (c :: rest) with
    | some r2 =>
      rw [hp] at h
      injection h with h2
      exact h2 ▸ parenTickerAt_upper15 _ _ hp
    | none =>
      rw [hp] at h
      exact ih r h

theorem findBracketTicker_upper15 (l : List Char) : ∀ r, findBracketTicker l = some r →
    upper15 r := by
  induction l with
  | nil => intro r h; simp [findBracketTicker] at h
  | cons c rest ih =>
    intro r h
    simp only [findBracketTicker] at h
    cases hp : bracketTickerAt (c :: rest) with
    | some r2 =>
      rw [hp] at h
      injection h with h2
      exact h2 ▸ bracketTickerAt_upper15 _ _ hp
    | none =>
      rw [hp] at h
      exact ih r h

/-- The Strategy 1 ticker state is empty or a 1-5 uppercase-letter run. -/
def tickInv (l : List Char) : Prop := l = [] ∨ upper15 l

/-- The Strategy 1 type state is empty, `Purchase`, or `Sale`. -/
def tyInv (l : List Char) : Prop :=
  l = [] ∨ l = "Purchase".data ∨ l = "Sale".data

theorem tickerUpdate_inv (line tick asset : List Char) (h : tickInv tick) :
    tickInv (tickerUpdate line tick asset).1 := by
  unfold tickerUpdate
  cases hf : findParenTicker line with
  | some r =>
    simp only [hf]
    exact Or.inr (findParenTicker_upper15 line r hf)
  | none =>
    simp only [hf]
    cases hb : findBracketTicker line with
    | some r =>
      simp only [hb]
      exact Or.inr (findBracketTicker_upper15 line r hb)
    | none =>
      simp only [hb]
      exact h

theorem typeUpdate_inv (txm : Option (List Char)) (tick2 ty : List Char)
    (h : tyInv ty) : tyInv (typeUpdate txm tick2 ty) := by
  unfold typeUpdate
  cases txm with
  | none => exact h
  | some w =>
    cases w with
    | nil => exact h
    | cons c cs =>
      show tyInv (if tick2 ≠ [] then
        (if jsToUpper c = 'P' then "Purchase".data else "Sale".data) else ty)
      by_cases ht : tick2 ≠ []
      · rw [if_pos ht]
        by_cases hp : jsToUpper c = 'P'
        · rw [if_pos hp]
          exact Or.inr (Or.inl rfl)
        · rw [if_neg hp]
          exact Or.inr (Or.inr rfl)
      · rw [if_neg ht]
        exact h

/-- Every record pushed by Strategy 1 has an uppercase 1-5-letter ticker and
type `Purchase` or `Sale`. -/
theorem strat1Loop_shape (lines : List (List Char)) : ∀ tick asset ty,
    tickInv tick → tyInv ty →
    ∀ t ∈ strat1Loop lines tick asset ty,
      upper15 t.ticker.data ∧ (t.type = "Purchase" ∨ t.type = "Sale") := by
  induction lines with
  | nil =>
    intro tick asset ty _ _ t ht
    simp [strat1Loop] at ht
  | cons line rest ih =>
    intro tick asset ty htick hty t ht
    simp only [strat1Loop] at ht
    by_cases h1 : line.length < 3
    · rw [if_pos h1] at ht
      exact ih tick asset ty htick hty t ht
    · rw [if_neg h1] at ht
      by_cases h2 : startsWithAny line noisePrefixes = true
      · rw [if_pos h2] at ht
        exact ih tick asset ty htick hty t ht
      · rw [if_neg h2] at ht
        have htick2 := tickerUpdate_inv line tick asset htick
        have hty2 := typeUpdate_inv (txWordOf line rest)
          (tickerUpdate line tick asset).1 ty hty
        cases ha : findAmount (line ++ ' ' :: (rest.head?).getD []) with
        | none =>
          simp only [ha] at ht
          exact ih _ _ _ htick2 hty2 t ht
        | some amt =>
          simp only [ha] at ht
          by_cases h3 : (tickerUpdate line tick asset).1 ≠ [] ∧
              typeUpdate (txWordOf line rest) (tickerUpdate line tick asset).1 ty ≠ []
          · rw [if_pos h3] at ht
            rcases List.mem_cons.mp ht with rfl | ht2
            · constructor
              · rcases htick2 with hnil | hup
                · exact absurd hnil h3.1
                · exact hup
              · rcases hty2 with hnil | hp | hs
                · exact absurd hnil h3.2
                · exact Or.inl (String.ext hp)
                · exact Or.inr (String.ext hs)
            · exact ih _ _ _ htick2 (Or.inl rfl) t ht2
          · rw [if_neg h3] at ht
            exact ih _ _ _ htick2 hty2 t ht

theorem tickerParenCIAt_letter15 (l tk after : List Char)
    (h : tickerParenCIAt l = some (tk, after)) : letter15 tk := by
  unfold tickerParenCIAt at h
  split at h
  case h_2 => exact absurd h (by simp)
  case h_1 rest =>
    dsimp only at h
    by_cases hc : 1 ≤ (rest.takeWhile isLetterAZ).length ∧
        (rest.takeWhile isLetterAZ).length ≤ 5
    · rw [if_pos hc] at h
      split at h
      · injection h with h2
        have h3 : List.takeWhile isLetterAZ rest = tk := congrArg Prod.fst h2
        exact h3 ▸ ⟨hc.1, hc.2, fun c hcm => List.mem_takeWhile_imp hcm⟩
      · exact absurd h (by simp)
    · rw [if_neg hc] at h
      exact absurd h (by simp)

theorem blockMatchAt_letter15 (l tk tx a rest : List Char)
    (h : blockMatchAt l = some (tk, tx, a, rest)) : letter15 tk := by
  unfold blockMatchAt at h
  cases hp : tickerParenCIAt l with
  | none => rw [hp] at h; exact absurd h (by simp)
  | some pr =>
    obtain ⟨tk2, after⟩ := pr
    simp only [hp] at h
    cases hs : txAmtSearch ')' after 300 with
    | none =>
      rw [hs] at h
      exact absurd h (by simp)
    | some trip =>
      obtain ⟨tx2, a2, rest2⟩ := trip
      simp only [hs, Option.some.injEq, Prod.mk.injEq] at h
      exact h.1 ▸ tickerParenCIAt_letter15 l tk2 after hp

theorem strat2Scan_letter15 (fuel : Nat) : ∀ (l : List Char) m, m ∈ strat2Scan l fuel →
    letter15 m.1 := by
  induction fuel with
  | zero => intro l m hm; simp [strat2Scan] at hm
  | succ f ih =>
    intro l m hm
    cases l with
    | nil => simp [strat2Scan] at hm
    | cons c rest =>
      simp only [strat2Scan] at hm
      cases hb : blockMatchAt (c :: rest) with
      | some q =>
        obtain ⟨tk, tx, a, after⟩ := q
        simp only [hb] at hm
        rcases List.mem_cons.mp hm with rfl | hm2
        · exact blockMatchAt_letter15 _ _ _ _ _ hb
        · exact ih after m hm2
      | none =>
        simp only [hb] at hm
        exact ih rest m hm

/-- Every record pushed by Strategy 2 has a 1-5-ASCII-letter ticker (either
case, since the block pattern carries the `i` flag) and type `Purchase` or
`Sale`. -/
theorem strat2Trades_shape (ft : List Char) :
    ∀ t ∈ strat2Trades ft, letter15 t.ticker.data ∧
      (t.type = "Purchase" ∨ t.type = "Sale") := by
  intro t ht
  unfold strat2Trades at ht
  rcases List.mem_filterMap.mp ht with ⟨m, hm, hmt⟩
  have hl := strat2Scan_letter15 _ _ _ hm
  dsimp only at hmt
  by_cases hd : denylist.contains (String.mk m.1) = true
  · rw [if_pos hd] at hmt
    exact absurd hmt (by simp)
  · rw [if_neg hd] at hmt
    injection hmt with h2
    subst h2
    refine ⟨hl, ?_⟩
    by_cases hw : m.2.1.map jsToUpper = "P".data ∨ m.2.1.map jsToUpper = "PURCHASE".data
    · rw [if_pos hw]
      exact Or.inl rfl
    · rw [if_neg hw]
      exact Or.inr rfl

theorem dedupAux_mem (ts : List Trade) (seen : List String) (t : Trade)
    (h : t ∈ dedupAux seen ts) : t ∈ ts :=
  (dedupAux_sublist ts seen).subset h

/-- C5 (amended): every TradeFact produced by the flattened-stream extractor
has a ticker of one to five ASCII letters (uppercase from the line pass;
possibly lowercase from the case-insensitive fallback pass) and transaction
type `Purchase` or `Sale`; and `normalizeTransaction` yields `Purchase`,
`Sale`, `Unknown`, or the raw source string unchanged. -/
theorem extractor_shape_amended :
    (∀ (text : String), ∀ t ∈ parseTradesFromPdfText text,
      (1 ≤ t.ticker.length ∧ t.ticker.length ≤ 5 ∧
        ∀ c ∈ t.ticker.data, isLetterAZ c = true) ∧
      (t.type = "Purchase" ∨ t.type = "Sale")) ∧
    (∀ ty : String, normalizeTransaction ty = "Purchase" ∨
      normalizeTransaction ty = "Sale" ∨ normalizeTransaction ty = "Unknown" ∨
      normalizeTransaction ty = ty) := by
  constructor
  · intro text t ht
    unfold parseTradesFromPdfText at ht
    have hmem := dedupAux_mem _ _ _ ht
    have hshape : letter15 t.ticker.data ∧ (t.type = "Purchase" ∨ t.type = "Sale") := by
      rcases List.mem_append.mp hmem with hm1 | hm2
      · have h0 := strat1Loop_shape _ [] [] [] (Or.inl rfl) (Or.inl rfl) t hm1
        exact ⟨upper15_letter15 _ h0.1, h0.2⟩
      · exact strat2Trades_shape _ t hm2
    exact ⟨⟨hshape.1.1, hshape.1.2.1, hshape.1.2.2⟩, hshape.2⟩
  · intro ty
    unfold normalizeTransaction
    dsimp only
    split
    · exact Or.inr (Or.inr (Or.inl rfl))
    · split
      · exact Or.inl rfl
      · split
        · exact Or.inr (Or.inl rfl)
        · exact Or.inr (Or.inr (Or.inr rfl))

/-- Counterexample to C5 as stated: the fallback grammar (with its `i` flag)
produces a ticker `qqq`, which is neither the sentinel nor uppercase; and
`normalizeTransaction` returns the raw source string `exchange`, which is
not one of the four enumerated values. -/
theorem shape_invariant_cex :
    (parseTradesFromPdfText "(qqq) P 01/01/2025 01/02/2025 $1,000").map Trade.ticker =
      ["qqq"] ∧
    ¬ validTicker "qqq" ∧
    normalizeTransaction "exchange" = "exchange" ∧
    "exchange" ∉ txTypes := by
  decide

/-- Witness for the amended C5 at the concrete `WAT` line. -/
theorem extractor_shape_amended_witness :
    Trade.mk "WAT" "(WAT) [ST] P 12/08/2025 01/01/2026 $1,001 - $15,000"
        "Purchase" "$1,001 - $15,000" ∈
      parseTradesFromPdfText "(WAT) [ST] P 12/08/2025 01/01/2026 $1,001 - $15,000" ∧
    ((1 ≤ (Trade.mk "WAT" "(WAT) [ST] P 12/08/2025 01/01/2026 $1,001 - $15,000"
        "Purchase" "$1,001 - $15,000").ticker.length ∧
      (Trade.mk "WAT" "(WAT) [ST] P 12/08/2025 01/01/2026 $1,001 - $15,000"
        "Purchase" "$1,001 - $15,000").ticker.length ≤ 5 ∧
      ∀ c ∈ (Trade.mk "WAT" "(WAT) [ST] P 12/08/2025 01/01/2026 $1,001 - $15,000"
        "Purchase" "$1,001 - $15,000").ticker.data, isLetterAZ c = true) ∧
     ((Trade.mk "WAT" "(WAT) [ST] P 12/08/2025 01/01/2026 $1,001 - $15,000"
        "Purchase" "$1,001 - $15,000").type = "Purchase" ∨
      (Trade.mk "WAT" "(WAT) [ST] P 12/08/2025 01/01/2026 $1,001 - $15,000"
        "Purchase" "$1,001 - $15,000").type = "Sale")) :=
  ⟨by decide,
   extractor_shape_amended.1 "(WAT) [ST] P 12/08/2025 01/01/2026 $1,001 - $15,000"
     (Trade.mk "WAT" "(WAT) [ST] P 12/08/2025 01/01/2026 $1,001 - $15,000"
        "Purchase" "$1,001 - $15,000") (by decide)⟩
